import Mathlib

/-!
Shallow embedding of the FAISS vector-index manager of the ai-rag-system
repository (src/app/services/faiss_store.py and src/app/services/index_queue.py),
together with theorems settling the frozen claims about it.

Modelling conventions:
* machine floats appear only inside vector arithmetic (L2 normalisation and
  the faiss nearest-neighbour kernel); none of the claims depends on the
  numeric values, so both are carried as explicit function parameters
  (`nz` for `_normalize` / the vectorised normalisation, `fsearch` for
  `Index.search`) and every theorem holds for all choices of them;
* the three on-disk artifacts (index file, metadata JSON, version marker)
  are modelled as a `Disk` record whose entries are absent, present-but-
  unreadable/unparsable (`corrupt`), or present with a parsed value;
* wall-clock time (`time.time()`) is an explicit `clock` argument to the
  operations that read it;
* Python module-level state (`_index`, `_chunk_infos`, `_last_loaded_version`)
  is the record `Mem`, threaded explicitly through the operations.
-/

namespace RagIndex

/-- A chunk row fetched from the relational store
(`get_all_chunks_with_document_info` / `get_chunks_by_document_id`):
id, document_id, chunk_index, content, embedding, document_title.
An empty `embedding` list models a falsy (absent/empty) embedding, which
`build_index_from_db` and `add_chunks_to_index` filter out. -/
structure Chunk where
  id : Int
  document_id : Int
  chunk_index : Int
  document_title : String
  content : String
  embedding : List Rat
deriving DecidableEq, Repr

/-- The metadata dict built by `_chunk_info_row`. -/
structure ChunkInfo where
  chunk_id : Int
  document_id : Int
  chunk_index : Int
  document_title : String
  content : String
deriving DecidableEq, Repr

/-- `_chunk_info_row` from faiss_store.py. -/
def _chunk_info_row (ch : Chunk) : ChunkInfo :=
  { chunk_id := ch.id
    document_id := ch.document_id
    chunk_index := ch.chunk_index
    document_title := ch.document_title
    content := ch.content }

/-- The configuration values read from `app.core.config.settings`. -/
structure Settings where
  EMBEDDING_DIM : Nat
  FAISS_NLIST : Nat
  FAISS_NPROBE : Nat
  FAISS_MIN_TRAIN : Nat
deriving DecidableEq, Repr

/-- The faiss index objects this code constructs: `IndexFlatIP` for small
corpora, `IndexIVFFlat` (with its coarse quantizer, nlist, nprobe and
trained flag) for large ones.  Both store their vectors as an ordered
row list; `add` appends rows. -/
inductive FaissIndex where
  | flatIP (dim : Nat) (rows : List (List Rat))
  | ivfFlat (dim : Nat) (nlist : Nat) (nprobe : Nat) (trained : Bool) (rows : List (List Rat))
deriving DecidableEq, Repr

/-- The ordered rows stored in an index. -/
def FaissIndex.rows : FaissIndex → List (List Rat)
  | .flatIP _ rs => rs
  | .ivfFlat _ _ _ _ rs => rs

/-- `index.ntotal`. -/
def FaissIndex.ntotal (i : FaissIndex) : Nat := i.rows.length

/-- `index.add(vectors)`: rows are appended in order. -/
def FaissIndex.add : FaissIndex → List (List Rat) → FaissIndex
  | .flatIP d rs, vs => .flatIP d (rs ++ vs)
  | .ivfFlat d nl np tr rs, vs => .ivfFlat d nl np tr (rs ++ vs)

/-- A file on disk: absent, present but unreadable or unparsable, or
present with a successfully parsed value. -/
inductive FileState (α : Type) where
  | absent
  | corrupt
  | valid (a : α)
deriving DecidableEq, Repr

/-- `Path.exists()`: true for corrupt files too. -/
def FileState.onDisk {α : Type} : FileState α → Bool
  | .absent => false
  | _ => true

/-- The metadata JSON document `{"chunk_count": ..., "chunk_infos": ...}`.
`chunk_infos` is optional because `load_index_from_disk` reads it with
`meta.get("chunk_infos", [])`. -/
structure MetaJson where
  chunk_count : Nat
  chunk_infos : Option (List ChunkInfo)
deriving DecidableEq, Repr

/-- The three persisted artifacts: `rag.faiss`, `rag_meta.json`,
`rag_index_version.txt`. -/
structure Disk where
  index_file : FileState FaissIndex
  meta_file : FileState MetaJson
  version_file : FileState Rat
deriving DecidableEq, Repr

/-- The module-level in-memory state of faiss_store.py. -/
structure Mem where
  _index : Option FaissIndex
  _chunk_infos : List ChunkInfo
  _last_loaded_version : Rat
deriving DecidableEq, Repr

/-- Vector count of the in-memory index (0 when no index is held). -/
def Mem.ntotal (m : Mem) : Nat :=
  match m._index with
  | none => 0
  | some idx => idx.ntotal

/-- `_load_version_from_disk`: 0.0 when the version file is absent or
unparsable, otherwise its parsed value. -/
def _load_version_from_disk (d : Disk) : Rat :=
  match d.version_file with
  | .valid v => v
  | _ => 0

/-- `_save_index_atomic(index, chunk_infos)` at a wall-clock reading
`clock`: writes the index file only when faiss is importable, always
replaces the metadata file with `{chunk_count, chunk_infos}`, and writes
`clock` to the version file. -/
def _save_index_atomic (faiss : Bool) (clock : Rat) (index : FaissIndex)
    (chunk_infos : List ChunkInfo) (d : Disk) : Disk :=
  { index_file := if faiss then .valid index else d.index_file
    meta_file := .valid { chunk_count := chunk_infos.length, chunk_infos := some chunk_infos }
    version_file := .valid clock }

/-- `load_index_from_disk()`: bails out (state untouched) when faiss is
missing or either file is absent; then `faiss.read_index` assigns `_index`
first, so a metadata failure after a successful index read leaves a
partially-updated state; returns whether a non-empty metadata list was
loaded. -/
def load_index_from_disk (faiss : Bool) (d : Disk) (m : Mem) : Mem × Bool :=
  if !faiss then (m, false)
  else
    match d.index_file, d.meta_file with
    | .absent, _ => (m, false)
    | _, .absent => (m, false)
    | .corrupt, _ => (m, false)
    | .valid idx, .corrupt => ({ m with _index := some idx }, false)
    | .valid idx, .valid mj =>
        let infos := mj.chunk_infos.getD []
        ({ _index := some idx
           _chunk_infos := infos
           _last_loaded_version := _load_version_from_disk d }, 0 < infos.length)

/-- `build_index_from_db()`: filters the corpus to chunks with embeddings,
clears the in-memory state on an empty result, otherwise builds a FlatIP
or trained IVF-Flat index depending on `FAISS_MIN_TRAIN`, installs the new
state and persists it atomically.  `db` is what
`_get_chunks_for_index()` returns and `nz` the vectorised L2
normalisation. -/
def build_index_from_db (faiss : Bool) (s : Settings) (nz : List Rat → List Rat)
    (db : List Chunk) (clock : Rat) (m : Mem) (d : Disk) : Mem × Disk × Bool :=
  if !faiss then (m, d, false)
  else
    let chunks := db.filter fun c => !c.embedding.isEmpty
    if chunks.isEmpty then
      ({ _index := none, _chunk_infos := [], _last_loaded_version := 0 }, d, false)
    else
      let vectors := chunks.map fun c => nz c.embedding
      let index :=
        if s.FAISS_MIN_TRAIN ≤ chunks.length then
          FaissIndex.ivfFlat s.EMBEDDING_DIM s.FAISS_NLIST s.FAISS_NPROBE true vectors
        else
          FaissIndex.flatIP s.EMBEDDING_DIM vectors
      let infos := chunks.map _chunk_info_row
      let d2 := _save_index_atomic faiss clock index infos d
      ({ _index := some index, _chunk_infos := infos
         _last_loaded_version := _load_version_from_disk d2 }, d2, true)

/-- The tail of `add_chunks_to_index` once an index handle is in hand:
`_index.add(vectors)`, extend `_chunk_infos`, save atomically, refresh
`_last_loaded_version`, return True. -/
def _finish_add (faiss : Bool) (clock : Rat) (idx : FaissIndex)
    (infos : List ChunkInfo) (vectors : List (List Rat)) (newInfos : List ChunkInfo)
    (d : Disk) : Mem × Disk × Bool :=
  let idx2 := idx.add vectors
  let infos2 := infos ++ newInfos
  let d2 := _save_index_atomic faiss clock idx2 infos2 d
  ({ _index := some idx2, _chunk_infos := infos2
     _last_loaded_version := _load_version_from_disk d2 }, d2, true)

/-- `add_chunks_to_index(doc_id)`: filters the document's chunks to those
with embeddings (`docChunks` is what `_get_chunks_by_doc_id(doc_id)`
returns); no-op on an empty result; with no usable in-memory index it
tries a disk load and otherwise falls back to a full rebuild (which needs
the whole corpus `db`); otherwise appends vectors and metadata in the same
order and saves atomically. -/
def add_chunks_to_index (faiss : Bool) (s : Settings) (nz : List Rat → List Rat)
    (db : List Chunk) (docChunks : List Chunk) (clock : Rat)
    (m : Mem) (d : Disk) : Mem × Disk × Bool :=
  if !faiss then (m, d, false)
  else
    let chunks := docChunks.filter fun c => !c.embedding.isEmpty
    if chunks.isEmpty then (m, d, false)
    else
      let vectors := chunks.map fun c => nz c.embedding
      let newInfos := chunks.map _chunk_info_row
      match m._index, m._chunk_infos with
      | some idx, info0 :: rest =>
          _finish_add faiss clock idx (info0 :: rest) vectors newInfos d
      | _, _ =>
          let r := load_index_from_disk faiss d m
          if r.2 then
            match r.1._index with
            | some idx => _finish_add faiss clock idx r.1._chunk_infos vectors newInfos d
            | none => (r.1, d, false)  -- unreachable: a successful load installs an index handle
          else build_index_from_db faiss s nz db clock r.1 d

/-- `_reload_if_disk_newer()`: reload when the on-disk version is strictly
newer and both files exist (a corrupt file still "exists"). -/
def _reload_if_disk_newer (faiss : Bool) (d : Disk) (m : Mem) : Mem × Bool :=
  if m._last_loaded_version < _load_version_from_disk d
      && d.index_file.onDisk && d.meta_file.onDisk then
    load_index_from_disk faiss d m
  else (m, false)

/-- `ensure_index()`: reload-if-newer, then return ready if a non-empty
in-memory index exists, else try a disk load, else a cold-start rebuild. -/
def ensure_index (faiss : Bool) (s : Settings) (nz : List Rat → List Rat)
    (db : List Chunk) (clock : Rat) (m : Mem) (d : Disk) : Mem × Disk × Bool :=
  let m1 := (_reload_if_disk_newer faiss d m).1
  if m1._index.isSome && !m1._chunk_infos.isEmpty then (m1, d, true)
  else
    let r := load_index_from_disk faiss d m1
    if r.2 then (r.1, d, true)
    else build_index_from_db faiss s nz db clock r.1 d

/-- `rebuild_index()`: a full rebuild under the lock. -/
def rebuild_index (faiss : Bool) (s : Settings) (nz : List Rat → List Rat)
    (db : List Chunk) (clock : Rat) (m : Mem) (d : Disk) : Mem × Disk × Bool :=
  build_index_from_db faiss s nz db clock m d

/-- Placeholder metadata value for the (never taken) out-of-range lookup
branch of `search`. -/
def cdefault : ChunkInfo :=
  { chunk_id := 0, document_id := 0, chunk_index := 0, document_title := "", content := "" }

/-- `search(query_embedding, top_k)`: empty when no index or no metadata
is in memory; clamps k to `ntotal`; empty when the clamp is non-positive;
otherwise runs the faiss kernel (`fsearch`, returning score/row pairs, one
per requested neighbour, with -1 padding rows possible) and maps each
in-range row back to its ChunkInfo, skipping out-of-range rows. -/
def search (faiss_kernel : FaissIndex → List Rat → Nat → List (Rat × Int))
    (nz : List Rat → List Rat) (m : Mem) (query : List Rat) (top_k : Int) :
    List (ChunkInfo × Rat) :=
  match m._index, m._chunk_infos with
  | some idx, info0 :: rest =>
      let infos := info0 :: rest
      let q := nz query
      let k : Int := min top_k (idx.ntotal : Int)
      if k ≤ 0 then []
      else
        (faiss_kernel idx q k.toNat).filterMap fun sc =>
          if sc.2 < 0 || (infos.length : Int) ≤ sc.2 then none
          else some (infos.getD sc.2.toNat cdefault, sc.1)
  | _, _ => []

/-- `get_index_stats()`. -/
def get_index_stats (m : Mem) : Bool × Nat × Rat :=
  match m._index with
  | none => (false, 0, m._last_loaded_version)
  | some idx => (true, idx.ntotal, m._last_loaded_version)

/-! ## The background worker queue (index_queue.py) -/

/-- A task dict on the queue: `{"type": "rebuild_index"}`,
`{"type": "add_chunks", "doc_id": ...}` (doc_id may be missing), or a dict
with any other type, which the worker ignores. -/
inductive Task where
  | rebuild
  | addChunks (doc_id : Option Int)
  | other
deriving DecidableEq, Repr

/-- A queue item: a task dict or the `None` shutdown sentinel. -/
abbrev QItem : Type := Option Task

/-- An index mutation actually performed by the worker. -/
inductive Action where
  | rebuild
  | add (doc_id : Int)
deriving DecidableEq, Repr

/-- The coalescing drain after a rebuild: pop with `get_nowait` until the
queue is empty; discard further `rebuild_index` tasks; put the `None`
sentinel or the first non-rebuild task back — `Queue.put` appends at the
TAIL of the queue.  Returns the queue contents after the drain. -/
def drain_rebuilds : List QItem → List QItem
  | [] => []
  | none :: rest => rest ++ [none]
  | some Task.rebuild :: rest => drain_rebuilds rest
  | some t :: rest => rest ++ [some t]

theorem drain_rebuilds_length_le (q : List QItem) :
    (drain_rebuilds q).length ≤ q.length := by
  induction q using drain_rebuilds.induct with
  | case1 => simp [drain_rebuilds]
  | case2 rest => simp [drain_rebuilds]
  | case3 rest ih =>
      simp only [drain_rebuilds]
      exact le_trans ih (Nat.le_succ _)
  | case4 t rest h => simp [drain_rebuilds]

/-- The sequence of index mutations `_worker_loop` performs on a queue of
tasks (with no concurrent enqueues): rebuild tasks trigger a rebuild and
then the coalescing drain; add_chunks tasks with a doc_id trigger an
incremental add; the `None` sentinel stops the loop. -/
def _worker_loop_trace (q : List QItem) : List Action :=
  match q with
  | [] => []
  | none :: _ => []
  | some Task.rebuild :: rest => Action.rebuild :: _worker_loop_trace (drain_rebuilds rest)
  | some (Task.addChunks (some doc)) :: rest => Action.add doc :: _worker_loop_trace rest
  | some (Task.addChunks none) :: rest => _worker_loop_trace rest
  | some Task.other :: rest => _worker_loop_trace rest
termination_by q.length
decreasing_by
  · exact Nat.lt_succ_of_le (drain_rebuilds_length_le rest)
  · exact Nat.lt_succ_self _
  · exact Nat.lt_succ_self _
  · exact Nat.lt_succ_self _

/-! ## Aliasing model for `search`'s `.copy()` of metadata dicts

Python dicts are heap objects referenced from `_chunk_infos`; `search`
returns `_chunk_infos[idx].copy()`, a freshly allocated dict holding the
same (immutable) values.  We model the dict heap as a list of cells
addressed by position, the internal metadata list as a list of cell
addresses, and `.copy()` as allocation of a new cell at the end of the
heap. -/

/-- The dict heap plus the index manager's internal references. -/
structure RefStore where
  heap : List ChunkInfo
  info_refs : List Nat
  index : Option FaissIndex

/-- The result-building loop of `search` over the raw faiss hits, with
`.copy()` modelled as allocation: each in-range hit appends a fresh cell
holding the referenced dict's current value and returns its address,
paired with the score. -/
def copy_hits (heap : List ChunkInfo) (refs : List Nat) :
    List (Rat × Int) → List ChunkInfo × List (Nat × Rat)
  | [] => (heap, [])
  | sc :: hs =>
      if sc.2 < 0 || (refs.length : Int) ≤ sc.2 then copy_hits heap refs hs
      else
        let addr := refs.getD sc.2.toNat 0
        let v := heap.getD addr cdefault
        let r := copy_hits (heap ++ [v]) refs hs
        (r.1, (heap.length, sc.1) :: r.2)

/-- `search` over the reference store: same guards and clamping as
`search`, but results are (address, score) pairs into the grown heap. -/
def search_refs (faiss_kernel : FaissIndex → List Rat → Nat → List (Rat × Int))
    (nz : List Rat → List Rat) (st : RefStore) (query : List Rat) (top_k : Int) :
    RefStore × List (Nat × Rat) :=
  match st.index, st.info_refs with
  | some idx, r0 :: rest =>
      let refs := r0 :: rest
      let k : Int := min top_k (idx.ntotal : Int)
      if k ≤ 0 then (st, [])
      else
        let p := copy_hits st.heap refs (faiss_kernel idx (nz query) k.toNat)
        ({ st with heap := p.1 }, p.2)
  | _, _ => (st, [])

/-- A caller-side mutation of a returned dict: item assignment /
wholesale update of the cell at one address. -/
def apply_muts (heap : List ChunkInfo) (muts : List (Nat × ChunkInfo)) : List ChunkInfo :=
  muts.foldl (fun h mu => h.set mu.1 mu.2) heap

/-! ## Reachability and the positional invariant -/

/-- The positional/provenance invariant on the in-memory state: with no
index the metadata list is empty; with an index, rows and metadata are
parallel images of one chunk list (so row `i` and `_chunk_infos[i]` come
from the same chunk record, and the lengths agree). -/
def MemInv (nz : List Rat → List Rat) (m : Mem) : Prop :=
  match m._index with
  | none => m._chunk_infos = []
  | some idx => ∃ chunks : List Chunk,
      idx.rows = chunks.map (fun c => nz c.embedding) ∧
      m._chunk_infos = chunks.map _chunk_info_row

/-- Disk consistency: whenever the index file holds a readable index, the
metadata file holds a readable document generated from the same chunk
list — i.e. the snapshot pair was published by one complete
`_save_index_atomic`, not torn or half-corrupted. -/
def DiskInv (nz : List Rat → List Rat) (d : Disk) : Prop :=
  ∀ idx : FaissIndex, d.index_file = .valid idx →
    ∃ mj : MetaJson, d.meta_file = .valid mj ∧
      ∃ chunks : List Chunk,
        idx.rows = chunks.map (fun c => nz c.embedding) ∧
        mj.chunk_infos.getD [] = chunks.map _chunk_info_row

/-- One transition of the index manager: any of the four public
operations with arbitrary corpus contents and clock readings, or an
external write of the snapshot directory (another process publishing a
complete snapshot, hence disk-consistent). -/
inductive Step (faiss : Bool) (s : Settings) (nz : List Rat → List Rat) :
    Mem × Disk → Mem × Disk → Prop where
  | build (db : List Chunk) (clock : Rat) (m : Mem) (d : Disk) :
      Step faiss s nz (m, d)
        ((build_index_from_db faiss s nz db clock m d).1,
         (build_index_from_db faiss s nz db clock m d).2.1)
  | load (m : Mem) (d : Disk) :
      Step faiss s nz (m, d) ((load_index_from_disk faiss d m).1, d)
  | add (db docChunks : List Chunk) (clock : Rat) (m : Mem) (d : Disk) :
      Step faiss s nz (m, d)
        ((add_chunks_to_index faiss s nz db docChunks clock m d).1,
         (add_chunks_to_index faiss s nz db docChunks clock m d).2.1)
  | ensure (db : List Chunk) (clock : Rat) (m : Mem) (d : Disk) :
      Step faiss s nz (m, d)
        ((ensure_index faiss s nz db clock m d).1,
         (ensure_index faiss s nz db clock m d).2.1)
  | env (m : Mem) (d d2 : Disk) (h : DiskInv nz d2) :
      Step faiss s nz (m, d) (m, d2)

/-- States reachable from process start (empty module state, any
consistent snapshot directory) through `Step` transitions. -/
inductive Reachable (faiss : Bool) (s : Settings) (nz : List Rat → List Rat) :
    Mem × Disk → Prop where
  | init (d0 : Disk) (h : DiskInv nz d0) :
      Reachable faiss s nz ({ _index := none, _chunk_infos := [], _last_loaded_version := 0 }, d0)
  | step {p q : Mem × Disk} :
      Reachable faiss s nz p → Step faiss s nz p q → Reachable faiss s nz q

/-! ## Helper lemmas -/

theorem FaissIndex.rows_add (i : FaissIndex) (vs : List (List Rat)) :
    (i.add vs).rows = i.rows ++ vs := by
  cases i <;> rfl

theorem FaissIndex.ntotal_add (i : FaissIndex) (vs : List (List Rat)) :
    (i.add vs).ntotal = i.ntotal + vs.length := by
  simp [FaissIndex.ntotal, FaissIndex.rows_add]

theorem load_no_faiss (d : Disk) (m : Mem) :
    load_index_from_disk false d m = (m, false) := rfl

theorem build_no_faiss (s : Settings) (nz : List Rat → List Rat) (db : List Chunk)
    (clock : Rat) (m : Mem) (d : Disk) :
    build_index_from_db false s nz db clock m d = (m, d, false) := rfl

theorem add_no_faiss (s : Settings) (nz : List Rat → List Rat) (db docChunks : List Chunk)
    (clock : Rat) (m : Mem) (d : Disk) :
    add_chunks_to_index false s nz db docChunks clock m d = (m, d, false) := rfl

theorem reload_no_faiss (d : Disk) (m : Mem) :
    (_reload_if_disk_newer false d m).1 = m := by
  unfold _reload_if_disk_newer
  split
  · rfl
  · rfl

/-- The metadata list of a `MemInv` state has exactly `ntotal` entries. -/
theorem MemInv.length_eq {nz : List Rat → List Rat} {m : Mem} (h : MemInv nz m) :
    m._chunk_infos.length = m.ntotal := by
  unfold MemInv at h
  unfold Mem.ntotal
  cases hmi : m._index with
  | none => rw [hmi] at h; simp [h]
  | some idx =>
      rw [hmi] at h
      obtain ⟨chunks, hrows, hinfos⟩ := h
      simp [FaissIndex.ntotal, hrows, hinfos]

/-- A complete `_save_index_atomic` publishes a consistent snapshot. -/
theorem DiskInv.save {nz : List Rat → List Rat} (clock : Rat) (idx : FaissIndex)
    (infos : List ChunkInfo) (d : Disk) (chunks : List Chunk)
    (hrows : idx.rows = chunks.map fun c => nz c.embedding)
    (hinfos : infos = chunks.map _chunk_info_row) :
    DiskInv nz (_save_index_atomic true clock idx infos d) := by
  intro idx2 h
  simp only [_save_index_atomic, if_true, FileState.valid.injEq] at h
  subst h
  exact ⟨_, rfl, chunks, hrows, by simp [hinfos]⟩

/-- `load_index_from_disk` from a consistent snapshot preserves the
positional invariant (whether or not it reports success). -/
theorem MemInv.load {nz : List Rat → List Rat} (faiss : Bool) {d : Disk} {m : Mem}
    (hm : MemInv nz m) (hd : DiskInv nz d) :
    MemInv nz (load_index_from_disk faiss d m).1 := by
  cases faiss with
  | false => simpa [load_no_faiss] using hm
  | true =>
      cases hfi : d.index_file with
      | absent =>
          simpa [load_index_from_disk, hfi] using hm
      | corrupt =>
          cases hfm : d.meta_file <;> simpa [load_index_from_disk, hfi, hfm] using hm
      | valid idx =>
          obtain ⟨mj, hmj, chunks, hrows, hinfos⟩ := hd idx hfi
          simp only [load_index_from_disk, Bool.not_true, Bool.false_eq_true,
            if_false, hfi, hmj]
          exact ⟨chunks, hrows, hinfos⟩

/-- `build_index_from_db` preserves both invariants. -/
theorem inv_build {nz : List Rat → List Rat} (faiss : Bool) (s : Settings)
    (db : List Chunk) (clock : Rat) {m : Mem} {d : Disk}
    (hm : MemInv nz m) (hd : DiskInv nz d) :
    MemInv nz (build_index_from_db faiss s nz db clock m d).1 ∧
    DiskInv nz (build_index_from_db faiss s nz db clock m d).2.1 := by
  cases faiss with
  | false => exact ⟨by simpa [build_no_faiss] using hm, by simpa [build_no_faiss] using hd⟩
  | true =>
      by_cases hc : (db.filter fun c => !c.embedding.isEmpty).isEmpty
      · constructor
        · simp [build_index_from_db, hc, MemInv]
        · simpa [build_index_from_db, hc] using hd
      · by_cases ht : s.FAISS_MIN_TRAIN ≤ (db.filter fun c => !c.embedding.isEmpty).length
        · constructor
          · simp only [build_index_from_db, Bool.not_true, Bool.false_eq_true, if_false,
              hc, ht, if_pos, if_true, MemInv]
            exact ⟨db.filter fun c => !c.embedding.isEmpty, rfl, rfl⟩
          · simp only [build_index_from_db, Bool.not_true, Bool.false_eq_true, if_false,
              hc, ht, if_pos, if_true]
            exact DiskInv.save clock _ _ d _ rfl rfl
        · constructor
          · simp only [build_index_from_db, Bool.not_true, Bool.false_eq_true, if_false,
              hc, ht, if_neg, if_true, MemInv]
            exact ⟨db.filter fun c => !c.embedding.isEmpty, rfl, rfl⟩
          · simp only [build_index_from_db, Bool.not_true, Bool.false_eq_true, if_false,
              hc, ht, if_neg, if_true]
            exact DiskInv.save clock _ _ d _ rfl rfl

/-- `_finish_add` preserves both invariants when the starting index and
metadata derive from one chunk list. -/
theorem inv_finish_add {nz : List Rat → List Rat} (clock : Rat) (idx : FaissIndex)
    (infos : List ChunkInfo) (newChunks : List Chunk) (d : Disk) (chunks0 : List Chunk)
    (hrows : idx.rows = chunks0.map fun c => nz c.embedding)
    (hinfos : infos = chunks0.map _chunk_info_row) :
    MemInv nz (_finish_add true clock idx infos
        (newChunks.map fun c => nz c.embedding) (newChunks.map _chunk_info_row) d).1 ∧
    DiskInv nz (_finish_add true clock idx infos
        (newChunks.map fun c => nz c.embedding) (newChunks.map _chunk_info_row) d).2.1 := by
  constructor
  · simp only [_finish_add, MemInv]
    exact ⟨chunks0 ++ newChunks, by simp [FaissIndex.rows_add, hrows],
      by simp [hinfos]⟩
  · simp only [_finish_add]
    exact DiskInv.save clock _ _ d (chunks0 ++ newChunks)
      (by simp [FaissIndex.rows_add, hrows]) (by simp [hinfos])

/-- `add_chunks_to_index` preserves both invariants. -/
theorem inv_add {nz : List Rat → List Rat} (faiss : Bool) (s : Settings)
    (db docChunks : List Chunk) (clock : Rat) {m : Mem} {d : Disk}
    (hm : MemInv nz m) (hd : DiskInv nz d) :
    MemInv nz (add_chunks_to_index faiss s nz db docChunks clock m d).1 ∧
    DiskInv nz (add_chunks_to_index faiss s nz db docChunks clock m d).2.1 := by
  cases faiss with
  | false => exact ⟨by simpa [add_no_faiss] using hm, by simpa [add_no_faiss] using hd⟩
  | true =>
      by_cases hc : (docChunks.filter fun c => !c.embedding.isEmpty).isEmpty
      · exact ⟨by simpa [add_chunks_to_index, hc] using hm,
          by simpa [add_chunks_to_index, hc] using hd⟩
      · cases hmi : m._index with
        | some idx =>
            cases hinfos : m._chunk_infos with
            | nil =>
                -- fallback branch through load / build
                simp only [add_chunks_to_index, Bool.not_true, Bool.false_eq_true, if_false,
                  hc, if_neg, hmi, hinfos]
                have hm1 := MemInv.load true hm hd
                by_cases hr : (load_index_from_disk true d m).2
                · simp only [hr, if_true]
                  cases hri : (load_index_from_disk true d m).1._index with
                  | none => exact ⟨by simpa [MemInv, hri] using
                      (by rw [MemInv, hri] at hm1; exact hm1), hd⟩
                  | some idx2 =>
                      rw [MemInv, hri] at hm1
                      obtain ⟨chunks1, h1, h2⟩ := hm1
                      exact inv_finish_add clock idx2 _ _ d chunks1 h1 h2
                · simp only [hr, if_false]
                  exact inv_build true s db clock hm1 hd
            | cons info0 rest =>
                simp only [add_chunks_to_index, Bool.not_true, Bool.false_eq_true, if_false,
                  hc, if_neg, hmi, hinfos]
                rw [MemInv, hmi] at hm
                obtain ⟨chunks0, h1, h2⟩ := hm
                rw [hinfos] at h2
                exact inv_finish_add clock idx _ _ d chunks0 h1 h2
        | none =>
            cases hinfos : m._chunk_infos with
            | nil =>
                simp only [add_chunks_to_index, Bool.not_true, Bool.false_eq_true, if_false,
                  hc, if_neg, hmi, hinfos]
                have hm1 := MemInv.load true hm hd
                by_cases hr : (load_index_from_disk true d m).2
                · simp only [hr, if_true]
                  cases hri : (load_index_from_disk true d m).1._index with
                  | none => exact ⟨by simpa [MemInv, hri] using
                      (by rw [MemInv, hri] at hm1; exact hm1), hd⟩
                  | some idx2 =>
                      rw [MemInv, hri] at hm1
                      obtain ⟨chunks1, h1, h2⟩ := hm1
                      exact inv_finish_add clock idx2 _ _ d chunks1 h1 h2
                · simp only [hr, if_false]
                  exact inv_build true s db clock hm1 hd
            | cons info0 rest =>
                -- impossible: MemInv with no index forces an empty metadata list
                rw [MemInv, hmi] at hm
                rw [hm] at hinfos
                cases hinfos

/-- `_reload_if_disk_newer` preserves the positional invariant. -/
theorem inv_reload {nz : List Rat → List Rat} (faiss : Bool) {d : Disk} {m : Mem}
    (hm : MemInv nz m) (hd : DiskInv nz d) :
    MemInv nz (_reload_if_disk_newer faiss d m).1 := by
  unfold _reload_if_disk_newer
  split
  · exact MemInv.load faiss hm hd
  · exact hm

/-- `ensure_index` preserves both invariants. -/
theorem inv_ensure {nz : List Rat → List Rat} (faiss : Bool) (s : Settings)
    (db : List Chunk) (clock : Rat) {m : Mem} {d : Disk}
    (hm : MemInv nz m) (hd : DiskInv nz d) :
    MemInv nz (ensure_index faiss s nz db clock m d).1 ∧
    DiskInv nz (ensure_index faiss s nz db clock m d).2.1 := by
  have hm1 : MemInv nz (_reload_if_disk_newer faiss d m).1 := inv_reload faiss hm hd
  unfold ensure_index
  dsimp only
  split
  · exact ⟨hm1, hd⟩
  · have hm2 : MemInv nz (load_index_from_disk faiss d (_reload_if_disk_newer faiss d m).1).1 :=
      MemInv.load faiss hm1 hd
    split
    · exact ⟨hm2, hd⟩
    · exact inv_build faiss s db clock hm2 hd

/-- Every reachable state satisfies both invariants. -/
theorem reachable_inv {faiss : Bool} {s : Settings} {nz : List Rat → List Rat}
    {p : Mem × Disk} (h : Reachable faiss s nz p) :
    MemInv nz p.1 ∧ DiskInv nz p.2 := by
  induction h with
  | init d0 hd => exact ⟨by simp [MemInv], hd⟩
  | step hr hs ih =>
      obtain ⟨hm, hd⟩ := ih
      cases hs with
      | build db clock m d => exact inv_build faiss s db clock hm hd
      | load m d => exact ⟨MemInv.load faiss hm hd, hd⟩
      | add db docChunks clock m d => exact inv_add faiss s db docChunks clock hm hd
      | ensure db clock m d => exact inv_ensure faiss s db clock hm hd
      | env m d d2 hd2 => exact ⟨hm, hd2⟩

/-- With the faiss backend missing, no operation ever populates the
in-memory state: every reachable state is the cleared initial one. -/
theorem reachable_no_faiss {s : Settings} {nz : List Rat → List Rat}
    {p : Mem × Disk} (h : Reachable false s nz p) :
    p.1 = { _index := none, _chunk_infos := [], _last_loaded_version := 0 } := by
  induction h with
  | init d0 hd => rfl
  | step hr hs ih =>
      cases hs with
      | build db clock m d => simpa [build_no_faiss] using ih
      | load m d => simpa [load_no_faiss] using ih
      | add db docChunks clock m d => simpa [add_no_faiss] using ih
      | ensure db clock m d =>
          have hm : m = { _index := none, _chunk_infos := [], _last_loaded_version := 0 } := ih
          subst hm
          simp [ensure_index, reload_no_faiss, load_no_faiss, build_no_faiss]
      | env m d d2 hd2 => exact ih

theorem getD_set_ne {α : Type} (l : List α) (a b : Nat) (v x : α) (h : b ≠ a) :
    (l.set b v).getD a x = l.getD a x := by
  simp [List.getD_eq_getElem?_getD, List.getElem?_set_ne h]

theorem getD_append_left {α : Type} (l l2 : List α) (a : Nat) (x : α) (h : a < l.length) :
    (l ++ l2).getD a x = l.getD a x := by
  simp [List.getD_eq_getElem?_getD, List.getElem?_append_left h]

/-- `copy_hits` only grows the heap: the original cells keep their
addresses and values. -/
theorem copy_hits_heap_prefix (refs : List Nat) (hs : List (Rat × Int))
    (heap : List ChunkInfo) : heap <+: (copy_hits heap refs hs).1 := by
  induction hs generalizing heap with
  | nil => simp [copy_hits]
  | cons sc tl ih =>
      by_cases hg : (decide (sc.2 < 0) || decide ((refs.length : Int) ≤ sc.2)) = true
      · simpa [copy_hits, hg] using ih heap
      · simp only [copy_hits, hg, if_false, Bool.false_eq_true]
        exact (List.prefix_append heap _).trans (ih _)

/-- Every address returned by `copy_hits` is a freshly allocated cell
(at or past the end of the starting heap). -/
theorem copy_hits_fresh (refs : List Nat) (hs : List (Rat × Int))
    (heap : List ChunkInfo) :
    ∀ p ∈ (copy_hits heap refs hs).2, heap.length ≤ p.1 := by
  induction hs generalizing heap with
  | nil => simp [copy_hits]
  | cons sc tl ih =>
      by_cases hg : (decide (sc.2 < 0) || decide ((refs.length : Int) ≤ sc.2)) = true
      · simpa [copy_hits, hg] using ih heap
      · intro p hp
        simp only [copy_hits, hg, if_false, Bool.false_eq_true, List.mem_cons] at hp
        rcases hp with hp | hp
        · subst hp; exact le_refl _
        · have := ih _ p hp
          simp only [List.length_append, List.length_cons, List.length_nil] at this
          omega

/-- Mutations that avoid an address leave its cell untouched. -/
theorem apply_muts_getD (heap : List ChunkInfo) (muts : List (Nat × ChunkInfo))
    (a : Nat) (x : ChunkInfo) (h : ∀ mu ∈ muts, mu.1 ≠ a) :
    (apply_muts heap muts).getD a x = heap.getD a x := by
  induction muts generalizing heap with
  | nil => rfl
  | cons mu tl ih =>
      simp only [apply_muts, List.foldl_cons] at *
      rw [ih (heap.set mu.1 mu.2) fun m hm => h m (List.mem_cons_of_mem _ hm)]
      exact getD_set_ne heap a mu.1 mu.2 x (h mu (List.mem_cons_self mu tl))

/-! ## Concrete fixtures used to instantiate the claims -/

def exampleChunk1 : Chunk :=
  { id := 1, document_id := 1, chunk_index := 0, document_title := "Doc",
    content := "hello", embedding := [1, 0] }

def exampleChunk2 : Chunk :=
  { id := 2, document_id := 1, chunk_index := 1, document_title := "Doc",
    content := "world", embedding := [0, 1] }

def exampleInfo1 : ChunkInfo := _chunk_info_row exampleChunk1

def exampleIndex1 : FaissIndex := .flatIP 2 [[1, 0]]

def exampleIndex2 : FaissIndex := .flatIP 2 [[0, 1], [1, 0]]

def emptyDisk : Disk :=
  { index_file := .absent, meta_file := .absent, version_file := .absent }

def initMem : Mem := { _index := none, _chunk_infos := [], _last_loaded_version := 0 }

def exampleSettings : Settings :=
  { EMBEDDING_DIM := 2, FAISS_NLIST := 7, FAISS_NPROBE := 3, FAISS_MIN_TRAIN := 2 }

/-! ## Claims -/

/-- C9: a save (`_save_index_atomic`) followed by a load
(`load_index_from_disk`) reconstructs a state with the saved index (hence
the saved vector count) and a `_chunk_infos` list identical in content
and order to the saved one, whatever the previous memory and disk
contents. -/
theorem C9_save_load_round_trip (clock : Rat) (idx : FaissIndex)
    (infos : List ChunkInfo) (m : Mem) (d : Disk) :
    (load_index_from_disk true (_save_index_atomic true clock idx infos d) m).1._index = some idx ∧
    (load_index_from_disk true (_save_index_atomic true clock idx infos d) m).1._chunk_infos = infos ∧
    (load_index_from_disk true (_save_index_atomic true clock idx infos d) m).1.ntotal = idx.ntotal := by
  refine ⟨?_, ?_, ?_⟩ <;> simp [load_index_from_disk, _save_index_atomic, Mem.ntotal]

/-- C2 (code bug): `_save_index_atomic` writes the bare wall-clock reading
as the version, with no strictness enforcement; two successive saves that
observe the same clock value (here 100) write equal versions, so the
later version is not strictly greater than the earlier one, contradicting
the spec's monotonic-versioning requirement. -/
theorem C2_version_not_strictly_increasing :
    (_save_index_atomic true 100 exampleIndex1 [exampleInfo1] emptyDisk).version_file
      = .valid 100 ∧
    (_save_index_atomic true 100 exampleIndex1 [exampleInfo1]
        (_save_index_atomic true 100 exampleIndex1 [exampleInfo1] emptyDisk)).version_file
      = .valid 100 ∧
    ¬ _load_version_from_disk (_save_index_atomic true 100 exampleIndex1 [exampleInfo1] emptyDisk) <
        _load_version_from_disk (_save_index_atomic true 100 exampleIndex1 [exampleInfo1]
          (_save_index_atomic true 100 exampleIndex1 [exampleInfo1] emptyDisk)) := by
  refine ⟨rfl, rfl, ?_⟩
  simp [_save_index_atomic, _load_version_from_disk]

/-- C7: on a non-empty embedded corpus, `build_index_from_db` builds an
exact FlatIP index when the embedded-chunk count is strictly below
`FAISS_MIN_TRAIN`, and a trained IVF-Flat index with the configured
`FAISS_NLIST`/`FAISS_NPROBE` when the count is at or above the threshold
(the at-threshold boundary included, since the code tests `>=`). -/
theorem C7_index_type_threshold (s : Settings) (nz : List Rat → List Rat)
    (db : List Chunk) (clock : Rat) (m : Mem) (d : Disk)
    (h : (db.filter fun c => !c.embedding.isEmpty) ≠ []) :
    ((db.filter fun c => !c.embedding.isEmpty).length < s.FAISS_MIN_TRAIN →
      (build_index_from_db true s nz db clock m d).1._index
        = some (FaissIndex.flatIP s.EMBEDDING_DIM
            ((db.filter fun c => !c.embedding.isEmpty).map fun c => nz c.embedding))) ∧
    (s.FAISS_MIN_TRAIN ≤ (db.filter fun c => !c.embedding.isEmpty).length →
      (build_index_from_db true s nz db clock m d).1._index
        = some (FaissIndex.ivfFlat s.EMBEDDING_DIM s.FAISS_NLIST s.FAISS_NPROBE true
            ((db.filter fun c => !c.embedding.isEmpty).map fun c => nz c.embedding))) := by
  have hne : (db.filter fun c => !c.embedding.isEmpty).isEmpty = false :=
    List.isEmpty_eq_false.mpr h
  constructor
  · intro hlt
    have hnot : ¬ s.FAISS_MIN_TRAIN ≤ (db.filter fun c => !c.embedding.isEmpty).length :=
      Nat.not_le.mpr hlt
    simp [build_index_from_db, hne, hnot]
  · intro hge
    simp [build_index_from_db, hne, hge]

/-- C7 witness: at exactly the threshold (two embedded chunks, threshold
two) the built index is the trained IVF-Flat structure. -/
theorem C7_index_type_threshold_witness :
    (build_index_from_db true exampleSettings (fun v => v)
        [exampleChunk1, exampleChunk2] 5 initMem emptyDisk).1._index
      = some (FaissIndex.ivfFlat 2 7 3 true [[1, 0], [0, 1]]) :=
  (C7_index_type_threshold exampleSettings (fun v => v) [exampleChunk1, exampleChunk2]
      5 initMem emptyDisk (by decide)).2 (by decide)

/-- C3 counterexample: with a readable index file (two vectors) but a
corrupt metadata file, `load_index_from_disk` returns not-loaded without
raising, yet the in-memory state is NOT left unchanged: `_index` has
already been replaced by the freshly read index. -/
def memBefore : Mem :=
  { _index := some exampleIndex1, _chunk_infos := [exampleInfo1], _last_loaded_version := 5 }

def corruptMetaDisk : Disk :=
  { index_file := .valid exampleIndex2, meta_file := .corrupt, version_file := .absent }

theorem C3_load_failure_mutates_state :
    (load_index_from_disk true corruptMetaDisk memBefore).2 = false ∧
    (load_index_from_disk true corruptMetaDisk memBefore).1 ≠ memBefore := by
  decide

/-- C3 (amended): every failing `load_index_from_disk` returns not-loaded
without raising; the state is fully unchanged when faiss is missing,
either file is absent, or the index file itself is unreadable — but when
the index file reads successfully and the metadata file is unreadable or
invalid, `_index` has already been replaced, with only `_chunk_infos` and
`_last_loaded_version` unchanged. -/
theorem C3_load_failure_state (faiss : Bool) (d : Disk) (m : Mem) :
    ((faiss = false ∨ d.index_file = .absent ∨ d.meta_file = .absent ∨ d.index_file = .corrupt) →
      load_index_from_disk faiss d m = (m, false)) ∧
    (∀ idx : FaissIndex, faiss = true → d.index_file = .valid idx → d.meta_file = .corrupt →
      load_index_from_disk faiss d m = ({ m with _index := some idx }, false)) := by
  constructor
  · rintro (hf | hf | hf | hf)
    · subst hf; rfl
    · cases faiss
      · rfl
      · simp [load_index_from_disk, hf]
    · cases faiss
      · rfl
      · cases hfi : d.index_file <;> simp [load_index_from_disk, hf, hfi]
    · cases faiss
      · rfl
      · cases hfm : d.meta_file <;> simp [load_index_from_disk, hf, hfm]
  · intro idx hfa hfi hfm
    subst hfa
    simp [load_index_from_disk, hfi, hfm]

/-- C3 amended witness: the concrete corrupt-metadata load returns
not-loaded with exactly `_index` replaced. -/
theorem C3_load_failure_state_witness :
    load_index_from_disk true corruptMetaDisk memBefore
      = ({ memBefore with _index := some exampleIndex2 }, false) :=
  (C3_load_failure_state true corruptMetaDisk memBefore).2 exampleIndex2 rfl rfl rfl

/-- An empty snapshot directory is trivially consistent. -/
theorem diskInv_emptyDisk (nz : List Rat → List Rat) : DiskInv nz emptyDisk := by
  intro idx h
  simp [emptyDisk] at h

/-- C4: when `add_chunks_to_index` takes the incremental path (an
in-memory index with at least one metadata entry exists) and the document
contributes `n ≥ 1` embedded chunks, the vector count grows by exactly
`n`, the metadata list grows by exactly `n`, and the call returns true. -/
theorem C4_incremental_growth (s : Settings) (nz : List Rat → List Rat)
    (db docChunks : List Chunk) (clock : Rat) (m : Mem) (d : Disk) (idx : FaissIndex)
    (n : Nat) (hidx : m._index = some idx) (hinfos : m._chunk_infos ≠ [])
    (hn : n = (docChunks.filter fun c => !c.embedding.isEmpty).length) (hpos : 1 ≤ n) :
    (add_chunks_to_index true s nz db docChunks clock m d).1.ntotal = m.ntotal + n ∧
    (add_chunks_to_index true s nz db docChunks clock m d).1._chunk_infos.length
      = m._chunk_infos.length + n ∧
    (add_chunks_to_index true s nz db docChunks clock m d).2.2 = true := by
  subst hn
  have hne : (docChunks.filter fun c => !c.embedding.isEmpty).isEmpty = false :=
    List.isEmpty_eq_false.mpr (List.length_pos.mp hpos)
  cases hci : m._chunk_infos with
  | nil => exact absurd hci hinfos
  | cons info0 rest =>
      refine ⟨?_, ?_, ?_⟩
      · simp [add_chunks_to_index, hne, hidx, hci, _finish_add, Mem.ntotal,
          FaissIndex.ntotal_add]
      · simp [add_chunks_to_index, hne, hidx, hci, _finish_add, Mem.ntotal,
          FaissIndex.ntotal_add]
        omega
      · simp [add_chunks_to_index, hne, hidx, hci, _finish_add, Mem.ntotal,
          FaissIndex.ntotal_add]

/-- C4 witness: adding one embedded chunk to a one-vector index yields a
two-vector index, a two-entry metadata list, and true. -/
theorem C4_incremental_growth_witness :
    (add_chunks_to_index true exampleSettings (fun v => v) [] [exampleChunk2] 6
        memBefore emptyDisk).1.ntotal = memBefore.ntotal + 1 ∧
    (add_chunks_to_index true exampleSettings (fun v => v) [] [exampleChunk2] 6
        memBefore emptyDisk).1._chunk_infos.length = memBefore._chunk_infos.length + 1 ∧
    (add_chunks_to_index true exampleSettings (fun v => v) [] [exampleChunk2] 6
        memBefore emptyDisk).2.2 = true :=
  C4_incremental_growth exampleSettings (fun v => v) [] [exampleChunk2] 6
    memBefore emptyDisk exampleIndex1 1 rfl (by decide) (by decide) (by decide)

/-- C5: `build_index_from_db` returns false in both failure cases and
afterwards the in-memory state is clear (no index handle, empty metadata,
so `search` returns nothing), and the on-disk snapshot files are left
untouched.  With the faiss backend missing the function returns the state
unchanged — which, in every reachable execution, is already the cleared
initial state since nothing can populate it without the backend; with an
empty embedded corpus it actively clears the state. -/
theorem C5_build_failure_cases (s : Settings) (nz : List Rat → List Rat)
    (db : List Chunk) (clock : Rat) (m : Mem) (d : Disk)
    (fsearch : FaissIndex → List Rat → Nat → List (Rat × Int))
    (query : List Rat) (top_k : Int) :
    (Reachable false s nz (m, d) →
      build_index_from_db false s nz db clock m d = (m, d, false) ∧
      m._index = none ∧ m._chunk_infos = []) ∧
    ((db.filter fun c => !c.embedding.isEmpty) = [] →
      build_index_from_db true s nz db clock m d = (initMem, d, false) ∧
      search fsearch nz (build_index_from_db true s nz db clock m d).1 query top_k = []) := by
  constructor
  · intro h
    have hm : m = initMem := reachable_no_faiss h
    exact ⟨build_no_faiss s nz db clock m d, by rw [hm]; rfl, by rw [hm]; rfl⟩
  · intro h
    have hne : (db.filter fun c => !c.embedding.isEmpty).isEmpty = true := by
      simp [h]
    constructor
    · simp [build_index_from_db, hne, initMem]
    · simp [build_index_from_db, hne, search]

/-- C5 witness: both failure cases at concrete inputs — missing backend
from the (reachable) initial state, and an empty corpus from a populated
state; each returns false, leaves the disk untouched, and ends with the
cleared state. -/
theorem C5_build_failure_cases_witness :
    build_index_from_db false exampleSettings (fun v => v) [exampleChunk1] 5 initMem emptyDisk
      = (initMem, emptyDisk, false) ∧
    build_index_from_db true exampleSettings (fun v => v) [] 5 memBefore emptyDisk
      = (initMem, emptyDisk, false) :=
  ⟨((C5_build_failure_cases exampleSettings (fun v => v) [exampleChunk1] 5 initMem emptyDisk
        (fun _ _ k => List.replicate k (0, -1)) [1, 0] 5).1
      (Reachable.init emptyDisk (diskInv_emptyDisk _))).1,
    ((C5_build_failure_cases exampleSettings (fun v => v) [] 5 memBefore emptyDisk
        (fun _ _ k => List.replicate k (0, -1)) [1, 0] 5).2 rfl).1⟩

/-- C6 counterexample: on the queue [rebuild, add 1, add 2] the worker
performs the rebuild, drains add 1 (the first non-rebuild task) and puts
it back — at the TAIL of the queue — so the executed order is
[rebuild, add 2, add 1], not the enqueue order [rebuild, add 1, add 2]
that the claim's "processed in its original position" requires. -/
theorem C6_put_back_reorders :
    _worker_loop_trace [some Task.rebuild, some (Task.addChunks (some 1)),
        some (Task.addChunks (some 2))]
      = [Action.rebuild, Action.add 2, Action.add 1] ∧
    ([Action.rebuild, Action.add 2, Action.add 1] : List Action)
      ≠ [Action.rebuild, Action.add 1, Action.add 2] := by
  constructor
  · simp [_worker_loop_trace, drain_rebuilds]
  · decide

/-- Draining a contiguous run of rebuild tasks discards them and
re-enqueues the first non-rebuild task at the tail. -/
theorem drain_rebuilds_replicate (k : Nat) (t : Task) (rest : List QItem)
    (ht : t ≠ Task.rebuild) :
    drain_rebuilds (List.replicate k (some Task.rebuild) ++ some t :: rest)
      = rest ++ [some t] := by
  induction k with
  | zero =>
      cases t with
      | rebuild => exact absurd rfl ht
      | addChunks doc => simp [drain_rebuilds]
      | other => simp [drain_rebuilds]
  | succ k ih => simpa [List.replicate_succ, drain_rebuilds] using ih

/-- C6 (amended): the worker processes queued tasks in enqueue order,
except that after performing a rebuild it drains and discards the
contiguously following rebuild tasks, and the first non-rebuild task
found during the drain is re-enqueued at the TAIL of the queue — so it is
subsequently processed after the tasks that were queued behind it, not in
its original position. -/
theorem C6_rebuild_coalescing (doc : Int) :
    (∀ rest : List QItem,
      _worker_loop_trace (some (Task.addChunks (some doc)) :: rest)
        = Action.add doc :: _worker_loop_trace rest) ∧
    (∀ (k : Nat) (t : Task) (rest : List QItem), t ≠ Task.rebuild →
      _worker_loop_trace
          (some Task.rebuild :: (List.replicate k (some Task.rebuild) ++ some t :: rest))
        = Action.rebuild :: _worker_loop_trace (rest ++ [some t])) := by
  constructor
  · intro rest
    simp [_worker_loop_trace]
  · intro k t rest ht
    rw [_worker_loop_trace, drain_rebuilds_replicate k t rest ht]

/-- C6 amended witness: a burst of two rebuilds followed by one add
collapses to one rebuild, with the add re-enqueued at the tail. -/
theorem C6_rebuild_coalescing_witness :
    _worker_loop_trace
        (some Task.rebuild :: (List.replicate 1 (some Task.rebuild)
          ++ some (Task.addChunks (some 7)) :: []))
      = Action.rebuild :: _worker_loop_trace ([] ++ [some (Task.addChunks (some 7))]) :=
  (C6_rebuild_coalescing 7).2 1 (Task.addChunks (some 7)) [] (by decide)

/-- C8: `search` is total (never raises): it returns the empty list when
no index is held, when the metadata list is empty, or when the index
holds zero vectors; otherwise it returns at most `min(top_k, ntotal)`
results, each mapped from an in-range row position to the corresponding
`_chunk_infos` entry, out-of-range rows being skipped.  `hk` states what
the faiss kernel guarantees: one (score, row) pair per requested
neighbour. -/
theorem C8_search_never_fails (fsearch : FaissIndex → List Rat → Nat → List (Rat × Int))
    (nz : List Rat → List Rat) (m : Mem) (query : List Rat) (top_k : Int)
    (hk : ∀ idx q k, (fsearch idx q k).length = k) :
    (m._index = none ∨ m._chunk_infos = [] ∨ m.ntotal = 0 →
      search fsearch nz m query top_k = []) ∧
    (search fsearch nz m query top_k).length ≤ (min top_k (m.ntotal : Int)).toNat ∧
    ∀ p ∈ search fsearch nz m query top_k,
      ∃ i : Nat, i < m._chunk_infos.length ∧ p.1 = m._chunk_infos.getD i cdefault := by
  cases hmi : m._index with
  | none =>
      refine ⟨fun _ => ?_, ?_, ?_⟩ <;> simp [search, hmi]
  | some idx =>
      cases hci : m._chunk_infos with
      | nil =>
          refine ⟨fun _ => ?_, ?_, ?_⟩ <;> simp [search, hmi, hci]
      | cons info0 rest =>
          have hnt : m.ntotal = idx.ntotal := by simp [Mem.ntotal, hmi]
          by_cases hkle : min top_k (idx.ntotal : Int) ≤ 0
          · refine ⟨fun _ => ?_, ?_, ?_⟩ <;> simp [search, hmi, hci, hkle]
          · refine ⟨?_, ?_, ?_⟩
            · rintro (h | h | h)
              · simp at h
              · simp at h
              · exfalso
                apply hkle
                have h0 : idx.ntotal = 0 := by omega
                exact le_trans inf_le_right (by simp [h0])
            · rw [hnt]
              simp only [search, hmi, hci, if_neg hkle]
              calc ((fsearch idx (nz query) (min top_k (idx.ntotal : Int)).toNat).filterMap _).length
                  ≤ (fsearch idx (nz query) (min top_k (idx.ntotal : Int)).toNat).length :=
                    List.length_filterMap_le _ _
                _ = (min top_k (idx.ntotal : Int)).toNat := hk _ _ _
            · intro p hp
              simp only [search, hmi, hci, if_neg hkle, List.mem_filterMap] at hp
              obtain ⟨sc, _, hsc⟩ := hp
              by_cases hr : (decide (sc.2 < 0) || decide (((info0 :: rest).length : Int) ≤ sc.2)) = true
              · rw [if_pos hr] at hsc; cases hsc
              · rw [if_neg hr] at hsc
                simp only [Bool.or_eq_true, decide_eq_true_eq, not_or, Int.not_lt, Int.not_le] at hr
                refine ⟨sc.2.toNat, ?_, ?_⟩
                · have h1 := hr.1
                  have h2 := hr.2
                  omega
                · obtain rfl := Option.some.inj hsc
                  rfl

/-- C8 witness: searching a one-vector index with `top_k = 5` returns at
most one result. -/
theorem C8_search_never_fails_witness :
    (search (fun _ _ k => List.replicate k (0, -1)) (fun v => v) memBefore [1, 0] 5).length
      ≤ (min 5 (memBefore.ntotal : Int)).toNat :=
  (C8_search_never_fails (fun _ _ k => List.replicate k (0, -1)) (fun v => v)
    memBefore [1, 0] 5 (fun _ _ k => List.length_replicate k _)).2.1

/-- C1 counterexample: `load_index_from_disk` against a disk holding a
readable two-vector index file but a corrupt metadata file (a torn or
half-corrupted snapshot) produces an in-memory state — reached through
one of the four operations named by the claim, from process start — whose
metadata list length (0) differs from its vector count (2). -/
theorem C1_invariant_broken_by_partial_load :
    (load_index_from_disk true corruptMetaDisk initMem).1._chunk_infos.length
      ≠ (load_index_from_disk true corruptMetaDisk initMem).1.ntotal := by
  decide

/-- C1 (amended): the positional invariant — `len(_chunk_infos) = ntotal`
and row `i` / `_chunk_infos[i]` generated from the same chunk record, in
order — holds for every state reachable through the four operations
provided every snapshot the loads observe is consistent (index and
metadata files published together by one complete `_save_index_atomic`,
as captured by `DiskInv`); a load of a torn or half-corrupted snapshot
can break it. -/
theorem C1_positional_invariant (faiss : Bool) (s : Settings)
    (nz : List Rat → List Rat) (m : Mem) (d : Disk)
    (h : Reachable faiss s nz (m, d)) :
    m._chunk_infos.length = m.ntotal ∧ MemInv nz m :=
  ⟨(reachable_inv h).1.length_eq, (reachable_inv h).1⟩

/-- C1 amended witness: the state after a cold-start build of a one-chunk
corpus satisfies the positional invariant. -/
theorem C1_positional_invariant_witness :
    (build_index_from_db true exampleSettings (fun v => v)
        [exampleChunk1] 5 initMem emptyDisk).1._chunk_infos.length
      = (build_index_from_db true exampleSettings (fun v => v)
          [exampleChunk1] 5 initMem emptyDisk).1.ntotal :=
  (C1_positional_invariant true exampleSettings (fun v => v) _ _
    (Reachable.step (Reachable.init emptyDisk (diskInv_emptyDisk _))
      (Step.build [exampleChunk1] 5 initMem emptyDisk))).1

/-- C10: every (address, score) pair returned by the reference-level
`search` is a freshly allocated copy of the cached metadata dict (its
address is not among the manager's internal references), so any sequence
of caller mutations applied to returned results leaves every internal
`_chunk_infos` cell unchanged. -/
theorem C10_results_are_fresh_copies
    (fsearch : FaissIndex → List Rat → Nat → List (Rat × Int))
    (nz : List Rat → List Rat) (st : RefStore) (query : List Rat) (top_k : Int)
    (muts : List (Nat × ChunkInfo))
    (hwf : ∀ a ∈ st.info_refs, a < st.heap.length)
    (hmu : ∀ mu ∈ muts, mu.1 ∈ (search_refs fsearch nz st query top_k).2.map Prod.fst) :
    (∀ p ∈ (search_refs fsearch nz st query top_k).2, p.1 ∉ st.info_refs) ∧
    ∀ a ∈ st.info_refs,
      (apply_muts (search_refs fsearch nz st query top_k).1.heap muts).getD a cdefault
        = st.heap.getD a cdefault := by
  have hfresh : ∀ p ∈ (search_refs fsearch nz st query top_k).2, st.heap.length ≤ p.1 := by
    cases hmi : st.index with
    | none => simp [search_refs, hmi]
    | some idx =>
        cases hci : st.info_refs with
        | nil => simp [search_refs, hmi, hci]
        | cons r0 rs =>
            by_cases hkle : min top_k (idx.ntotal : Int) ≤ 0
            · simp [search_refs, hmi, hci, hkle]
            · simp only [search_refs, hmi, hci, if_neg hkle]
              exact copy_hits_fresh _ _ _
  have hheap : ∀ a ∈ st.info_refs,
      (search_refs fsearch nz st query top_k).1.heap.getD a cdefault
        = st.heap.getD a cdefault := by
    intro a ha
    have hpre : st.heap <+: (search_refs fsearch nz st query top_k).1.heap := by
      cases hmi : st.index with
      | none => simp [search_refs, hmi]
      | some idx =>
          cases hci : st.info_refs with
          | nil => simp [search_refs, hmi, hci]
          | cons r0 rs =>
              by_cases hkle : min top_k (idx.ntotal : Int) ≤ 0
              · simp [search_refs, hmi, hci, hkle]
              · simp only [search_refs, hmi, hci, if_neg hkle]
                exact copy_hits_heap_prefix _ _ _
    obtain ⟨tail, htail⟩ := hpre
    rw [← htail, getD_append_left _ _ _ _ (hwf a ha)]
  constructor
  · intro p hp hmem
    exact absurd (hwf p.1 hmem) (Nat.not_lt.mpr (hfresh p hp))
  · intro a ha
    rw [apply_muts_getD _ _ _ _ fun mu hm => ?_, hheap a ha]
    obtain ⟨p, hp, hfst⟩ := List.mem_map.mp (hmu mu hm)
    have := hfresh p hp
    have := hwf a ha
    omega

/-- Kernel stub used to instantiate the C10 theorem: one hit on row 0
with score 1 per requested neighbour. -/
def onesKernel : FaissIndex → List Rat → Nat → List (Rat × Int) :=
  fun _ _ k => List.replicate k (1, 0)

def exampleRefStore : RefStore :=
  { heap := [exampleInfo1], info_refs := [0], index := some exampleIndex1 }

/-- C10 witness: after searching a one-dict store and mutating the
returned copy (cell 1), the internal cell 0 still holds its original
dict. -/
theorem C10_results_are_fresh_copies_witness :
    (apply_muts (search_refs onesKernel (fun v => v) exampleRefStore [1, 0] 1).1.heap
        [(1, cdefault)]).getD 0 cdefault
      = exampleRefStore.heap.getD 0 cdefault :=
  (C10_results_are_fresh_copies onesKernel (fun v => v) exampleRefStore [1, 0] 1
    [(1, cdefault)] (by decide) (by decide)).2 0 (by decide)

end RagIndex
